import Mathlib

/-!
# KASURI core: shallow embedding and verification

This file embeds the core of the KASURI application launcher
(`src-tauri/src/repositories/application_repository.rs`,
`src-tauri/src/service/fuzzy_sorter.rs`, `src-tauri/src/core/kasuri.rs`,
`src-tauri/src/model/application.rs`) in Lean and proves the spec's
testable properties about it.

Modelling conventions:
* The SQLite `applications` table is a `List ApplicationRepositoryRecord`
  in row order; `app_id` is its primary key.
* A SQL `NULL` in the `last_used` column is modelled as `0`: the Rust code
  reads the column as `i64` (NULL reads back as 0) and the score
  computation treats `last_used <= 0` as "unset".
* `f64` usage-recency scores are modelled as `ℚ`; all numerators and
  denominators involved are small integers.
* The external `SkimMatcherV2` fuzzy matcher (a third-party crate, not part
  of this repository) is a parameter `matcher : String → String → Option Int`
  of every ranking definition; `(matcher name query) = none` is the
  crate's no-match sentinel, turned into score `0` by `unwrap_or(0)`.
* Rust's stable `slice::sort_by cmp` is modelled as `List.insertionSort`
  with the total preorder `r x y := cmp x y ≠ Greater`: a stable sort is
  extensionally unique, so insertion sort has exactly the semantics of the
  stable sort used by the Rust standard library.
-/

/-- `Application` from `model/application.rs`.  The Rust field `alias` is
rendered `name_alias` because `alias` is a Lean keyword. -/
structure Application where
  name : String
  name_alias : Option String
  app_id : String
  path : String
  icon_path : Option String
  usage_recency_score : ℚ
deriving Repr, DecidableEq

/-- `ApplicationRepositoryRecord` from `repositories/application_repository.rs`.
`last_used = 0` models a SQL NULL (read back as 0 through the i64 column read). -/
structure ApplicationRepositoryRecord where
  app_id : String
  name : String
  path : String
  usage_count : Int
  last_used : Int
deriving Repr, DecidableEq

/-! ## Fuzzy sorter (`service/fuzzy_sorter.rs`) -/

/-- `MINIMUM_MATCH_SCORE` from `service/fuzzy_sorter.rs`. -/
def MINIMUM_MATCH_SCORE : Int := 19

/-- The comparator of `sort_with_filter` (`b.1.cmp(&a.1)`, i.e. descending
score, then descending `usage_recency_score`, remaining ties `Equal`),
rendered as the relation of a stable sort: `sortKeyRel x y` iff the Rust
comparator on `(x, y)` does not return `Greater`. -/
def sortKeyRel (x y : Application × Int) : Prop :=
  y.2 < x.2 ∨ (x.2 = y.2 ∧ y.1.usage_recency_score ≤ x.1.usage_recency_score)

instance : DecidableRel sortKeyRel := fun x y => by
  unfold sortKeyRel; infer_instance

instance : IsTotal (Application × Int) sortKeyRel where
  total x y := by
    unfold sortKeyRel
    rcases lt_trichotomy x.2 y.2 with h | h | h
    · exact Or.inr (Or.inl h)
    · rcases le_total y.1.usage_recency_score x.1.usage_recency_score with h2 | h2
      · exact Or.inl (Or.inr ⟨h, h2⟩)
      · exact Or.inr (Or.inr ⟨h.symm, h2⟩)
    · exact Or.inl (Or.inl h)

instance : IsTrans (Application × Int) sortKeyRel where
  trans x y z hxy hyz := by
    unfold sortKeyRel at *
    rcases hxy with h1 | ⟨h1, h1r⟩ <;> rcases hyz with h2 | ⟨h2, h2r⟩
    · exact Or.inl (h2.trans h1)
    · exact Or.inl (h2 ▸ h1)
    · exact Or.inl (h1 ▸ h2)
    · exact Or.inr ⟨h1.trans h2, h2r.trans h1r⟩

/-- `FuzzySorter::sort_with_filter`, parametric in the external matcher.
`matcher name query = none` is the no-match sentinel (`unwrap_or(0)`). -/
def sort_with_filter (matcher : String → String → Option Int) (query : String)
    (applications : List Application) : List Application :=
  let applications_with_scores :=
    applications.map (fun app => (app, (matcher app.name query).getD 0))
  let sorted := applications_with_scores.insertionSort sortKeyRel
  (sorted.filter (fun p => MINIMUM_MATCH_SCORE < p.2)).map Prod.fst

/-! ## Index controller (`core/kasuri.rs`) -/

/-- `SEARCH_RESULT_LIMIT` from `core/kasuri.rs`. -/
def SEARCH_RESULT_LIMIT : Nat := 6

/-- `AppForView` from `core/kasuri_app.rs` (the UI projection built by
`handle_search_application`). -/
structure AppForView where
  name : String
  app_id : String
  icon_path : String
deriving Repr, DecidableEq

/-- `Kasuri::handle_search_application`: clone the cache (empty when
uninitialized), rank with `sort_with_filter`, truncate to
`SEARCH_RESULT_LIMIT`, and project to `AppForView`. -/
def handle_search_application (matcher : String → String → Option Int)
    (app_cache : Option (List Application)) (query : String) : List AppForView :=
  let applications := app_cache.getD []
  let sorted_apps := sort_with_filter matcher query applications
  let limit := min sorted_apps.length SEARCH_RESULT_LIMIT
  (sorted_apps.take limit).map
    (fun app => { name := app.name, app_id := app.app_id,
                  icon_path := app.icon_path.getD "" })

/-- `Kasuri::handle_launch_application`, parametric in the outcome of
`Application::launch` and of `ApplicationRepository::update_usage` (both
are I/O: launching a process resp. a SQLite UPDATE).  An uninitialized
cache is an error; a missing app is logged and `Ok`; `launch` failures
propagate through `?`; `update_usage` failures are swallowed by
`let _ = ... .map_err(log)`. -/
def handle_launch_application (launch : Application → Except String Unit)
    (update_usage : Application → Except String Unit)
    (app_cache : Option (List Application)) (app_id : String) :
    Except String Unit :=
  match app_cache with
  | none => .error "Application cache is not initialized"
  | some cache =>
    match cache.find? (fun app => app.app_id = app_id) with
    | some app =>
      match launch app with
      | .error e => .error e
      | .ok _ =>
        match update_usage app with
        | _ => .ok ()
    | none => .ok ()

/-! ## Reconciliation (`repositories/application_repository.rs`,
`renew_applications`)

The SQLite table is a `List ApplicationRepositoryRecord` in row order.  The
Rust code builds a `HashMap` keyed by `app_id` from the candidate list
(later entries overwrite earlier ones), streams the persisted `app_id`
column over it, and then applies one bulk DELETE and one bulk INSERT. -/

/-- One `HashMap::collect` step: inserting a candidate keyed by `app_id`
replaces any earlier candidate with the same key. -/
def insertLookup (acc : List Application) (app : Application) : List Application :=
  acc.filter (fun v => v.app_id ≠ app.app_id) ++ [app]

/-- The candidate lookup `hash_map`, built from the candidate list keyed by
`app_id` (last occurrence wins, as with `HashMap::collect`). -/
def buildLookup (applications : List Application) : List Application :=
  applications.foldl insertLookup []

/-- One iteration of the `SELECT app_id FROM applications` loop: a persisted
`app_id` found in the lookup is removed from it (survivor); otherwise it is
appended to `delete_applications`. -/
def scanStep (st : List Application × List String) (app_id : String) :
    List Application × List String :=
  if app_id ∈ st.1.map Application.app_id then
    (st.1.filter (fun v => v.app_id ≠ app_id), st.2)
  else
    (st.1, st.2 ++ [app_id])

/-- The fresh row inserted for a new application:
`INSERT INTO applications (app_id, name, path)` leaves `usage_count` at its
schema default `0` and `last_used` at NULL (modelled as `0`). -/
def freshRecord (app : Application) : ApplicationRepositoryRecord :=
  { app_id := app.app_id, name := app.name, path := app.path,
    usage_count := 0, last_used := 0 }

/-- `ApplicationRepository::renew_applications` with its three observable
outcomes: the table after the bulk DELETE and bulk INSERT, the
`new_applications` return value, and the `delete_applications` list.

The bulk DELETE binds its placeholders with `enumerate()` starting at 0,
but the sqlite crate's parameter indices are 1-based (every other bind in
the repository is 1-based: `update_usage` binds `(1, ...)`, the INSERT in
this same function binds `i*3+1 ..`).  The bind at index 0 fails and the
error is discarded by `let _ =`; element `i` of `delete_applications` goes
to placeholder `i` for `i >= 1`; the last placeholder is never bound and
stays NULL, which matches no row.  The DELETE that actually executes
removes the rows whose `app_id` is in `delete_applications.drop 1`: the
first marked id is never deleted, and a one-element deletion list deletes
nothing. -/
def renewFull (table : List ApplicationRepositoryRecord)
    (applications : List Application) :
    List ApplicationRepositoryRecord × List Application × List String :=
  let scanned := (table.map ApplicationRepositoryRecord.app_id).foldl scanStep
    (buildLookup applications, [])
  let new_applications := scanned.1
  let delete_applications := scanned.2
  let kept := table.filter (fun r => r.app_id ∉ delete_applications.drop 1)
  (kept ++ new_applications.map freshRecord, new_applications, delete_applications)

/-- `renew_applications` as the Rust caller sees it: the updated table and
the returned list of newly inserted applications. -/
def renew_applications (table : List ApplicationRepositoryRecord)
    (applications : List Application) :
    List ApplicationRepositoryRecord × List Application :=
  ((renewFull table applications).1, (renewFull table applications).2.1)

/-! ## Record-to-application conversion (`model/application.rs`,
`impl From<ApplicationRepositoryRecord> for Application`) -/

/-- `days_since_last_used` in the `From` conversion: whole days elapsed, `0`
when `last_used` is unset (`<= 0`, i.e. NULL-read-as-0) or not in the past. -/
def daysSinceLastUsed (now : Int) (record : ApplicationRepositoryRecord) : Int :=
  if record.last_used > 0 ∧ now > record.last_used then
    (now - record.last_used) / 86400
  else 0

/-- The `From<ApplicationRepositoryRecord> for Application` conversion,
with the ambient clock `now` (Unix seconds) passed explicitly;
`usage_recency_score = usage_count / (days_since_last_used + 1)`. -/
def recordToApplication (now : Int) (record : ApplicationRepositoryRecord) :
    Application :=
  { name := record.name
    name_alias := none
    app_id := record.app_id
    path := record.path
    icon_path := none
    usage_recency_score :=
      (record.usage_count : ℚ) / ((daysSinceLastUsed now record : ℚ) + 1) }

/-! ## Lemmas about the candidate lookup and the scan fold -/

theorem insertLookup_map_app_id (acc : List Application) (app : Application) :
    (insertLookup acc app).map Application.app_id =
      (acc.filter (fun v => v.app_id ≠ app.app_id)).map Application.app_id
        ++ [app.app_id] := by
  simp [insertLookup]

theorem mem_map_app_id_insertLookup (acc : List Application) (a : Application)
    (x : String) :
    x ∈ (insertLookup acc a).map Application.app_id ↔
      x ∈ acc.map Application.app_id ∨ x = a.app_id := by
  simp only [insertLookup, List.map_append, List.mem_append, List.mem_map,
    List.mem_filter, List.map_cons, List.map_nil, List.mem_singleton,
    ne_eq, decide_not, Bool.not_eq_eq_eq_not, Bool.not_true,
    decide_eq_false_iff_not]
  constructor
  · rintro (⟨v, ⟨hv, _⟩, hvx⟩ | h)
    · exact Or.inl ⟨v, hv, hvx⟩
    · exact Or.inr h
  · rintro (⟨v, hv, hvx⟩ | h)
    · by_cases hxa : x = a.app_id
      · exact Or.inr hxa
      · exact Or.inl ⟨v, ⟨hv, fun hc => hxa (hvx ▸ hc ▸ rfl)⟩, hvx⟩
    · exact Or.inr h

theorem mem_map_app_id_foldl_insertLookup (apps : List Application)
    (acc : List Application) (x : String) :
    x ∈ (apps.foldl insertLookup acc).map Application.app_id ↔
      x ∈ acc.map Application.app_id ∨ x ∈ apps.map Application.app_id := by
  induction apps generalizing acc with
  | nil => simp
  | cons a rest ih =>
    rw [List.foldl_cons, ih, mem_map_app_id_insertLookup]
    simp only [List.map_cons, List.mem_cons]
    tauto

theorem mem_map_app_id_buildLookup (apps : List Application) (x : String) :
    x ∈ (buildLookup apps).map Application.app_id ↔
      x ∈ apps.map Application.app_id := by
  rw [buildLookup, mem_map_app_id_foldl_insertLookup]
  simp

theorem nodup_map_app_id_foldl_insertLookup (apps : List Application)
    (acc : List Application) (hacc : (acc.map Application.app_id).Nodup) :
    ((apps.foldl insertLookup acc).map Application.app_id).Nodup := by
  induction apps generalizing acc with
  | nil => simpa using hacc
  | cons a rest ih =>
    rw [List.foldl_cons]
    refine ih _ ?_
    rw [insertLookup_map_app_id]
    rw [List.nodup_append]
    refine ⟨?_, List.nodup_singleton _, ?_⟩
    · exact ((List.filter_sublist _).map _).nodup hacc
    · intro x hx
      obtain ⟨v, hv, hvx⟩ := List.mem_map.mp hx
      have := (List.mem_filter.mp hv).2
      simp only [List.mem_singleton]
      intro hxa
      rw [hxa] at hvx
      simp [hvx] at this

theorem nodup_map_app_id_buildLookup (apps : List Application) :
    ((buildLookup apps).map Application.app_id).Nodup :=
  nodup_map_app_id_foldl_insertLookup apps [] (by simp)

theorem foldl_insertLookup_eq_append (apps : List Application) :
    ∀ acc : List Application,
      ((acc.map Application.app_id ++ apps.map Application.app_id)).Nodup →
      apps.foldl insertLookup acc = acc ++ apps := by
  induction apps with
  | nil => intro acc _; simp
  | cons a rest ih =>
    intro acc h
    have ha : a.app_id ∉ acc.map Application.app_id := by
      intro hmem
      have := List.disjoint_of_nodup_append h
      exact this hmem (by simp)
    have hinsert : insertLookup acc a = acc ++ [a] := by
      rw [insertLookup]
      congr 1
      refine List.filter_eq_self.mpr ?_
      intro v hv
      simp only [ne_eq, decide_eq_true_eq]
      intro hva
      exact ha (List.mem_map.mpr ⟨v, hv, hva⟩)
    rw [List.foldl_cons, hinsert, ih (acc ++ [a]) ?_, List.append_assoc]
    · rfl
    · simpa [List.append_assoc] using h

theorem buildLookup_eq_self (apps : List Application)
    (h : (apps.map Application.app_id).Nodup) : buildLookup apps = apps := by
  rw [buildLookup, foldl_insertLookup_eq_append apps [] (by simpa using h)]
  simp

theorem foldl_scanStep_nil_lookup (ids : List String) :
    ∀ ds : List String, ids.foldl scanStep ([], ds) = ([], ds ++ ids) := by
  induction ids with
  | nil => intro ds; simp
  | cons i rest ih =>
    intro ds
    rw [List.foldl_cons]
    have : scanStep ([], ds) i = ([], ds ++ [i]) := by
      simp [scanStep]
    rw [this, ih, List.append_assoc]
    rfl

/-- Full characterization of the `SELECT app_id` scan loop over a table
whose `app_id` column is duplicate-free (the primary-key invariant): the
surviving lookup is the lookup minus the persisted ids, and the deletion
list is the persisted ids missing from the lookup, in table order. -/
theorem foldl_scanStep_eq (ids : List String) :
    ids.Nodup → ∀ (m : List Application) (ds : List String),
      ids.foldl scanStep (m, ds) =
        (m.filter (fun v => v.app_id ∉ ids),
         ds ++ ids.filter (fun i => i ∉ m.map Application.app_id)) := by
  induction ids with
  | nil =>
    intro _ m ds
    simp
  | cons i rest ih =>
    intro hnd m ds
    obtain ⟨hir, hrest⟩ := List.nodup_cons.mp hnd
    rw [List.foldl_cons]
    by_cases hm : i ∈ m.map Application.app_id
    · have hstep : scanStep (m, ds) i = (m.filter (fun v => v.app_id ≠ i), ds) := by
        simp [scanStep, hm]
      rw [hstep, ih hrest]
      simp only [Prod.mk.injEq]
      constructor
      · rw [List.filter_filter]
        refine List.filter_congr ?_
        intro v _
        simp [List.mem_cons, not_or, decide_not]
        exact Bool.and_comm _ _
      · have h1 : (i :: rest).filter (fun j => j ∉ m.map Application.app_id)
            = rest.filter (fun j => j ∉ m.map Application.app_id) := by
          rw [List.filter_cons]
          simp [hm]
        rw [h1]
        congr 1
        refine List.filter_congr ?_
        intro j hj
        have hji : j ≠ i := fun hc => hir (hc ▸ hj)
        have hmem : j ∈ (m.filter (fun v => v.app_id ≠ i)).map Application.app_id
            ↔ j ∈ m.map Application.app_id := by
          simp only [List.mem_map, List.mem_filter, ne_eq, decide_eq_true_eq,
            decide_not, Bool.not_eq_eq_eq_not, Bool.not_true,
            decide_eq_false_iff_not]
          constructor
          · rintro ⟨v, ⟨hv, _⟩, hvj⟩
            exact ⟨v, hv, hvj⟩
          · rintro ⟨v, hv, hvj⟩
            exact ⟨v, ⟨hv, fun hc => hji (hvj.symm.trans hc)⟩, hvj⟩
        rw [decide_eq_decide]
        exact not_congr hmem
    · have hstep : scanStep (m, ds) i = (m, ds ++ [i]) := by
        simp [scanStep, hm]
      rw [hstep, ih hrest]
      simp only [Prod.mk.injEq]
      constructor
      · refine List.filter_congr ?_
        intro v hv
        have hvi : v.app_id ≠ i := fun hc =>
          hm (List.mem_map.mpr ⟨v, hv, hc⟩)
        simp only [decide_eq_decide, List.mem_cons, not_or]
        tauto
      · have h1 : (i :: rest).filter (fun j => j ∉ m.map Application.app_id)
            = i :: rest.filter (fun j => j ∉ m.map Application.app_id) := by
          rw [List.filter_cons]
          simp [hm]
        rw [h1, List.append_assoc]
        rfl

/-- `renew_applications` over a table satisfying the primary-key invariant,
with the candidate lookup left explicit. -/
theorem renewFull_characterization (table : List ApplicationRepositoryRecord)
    (C : List Application)
    (hP : (table.map ApplicationRepositoryRecord.app_id).Nodup) :
    renewFull table C =
      (table.filter
          (fun r => r.app_id ∉
            (((table.map ApplicationRepositoryRecord.app_id).filter
              (fun i => i ∉ (buildLookup C).map Application.app_id)).drop 1))
        ++ ((buildLookup C).filter
          (fun a =>
            a.app_id ∉ table.map ApplicationRepositoryRecord.app_id)).map
          freshRecord,
       (buildLookup C).filter
         (fun a => a.app_id ∉ table.map ApplicationRepositoryRecord.app_id),
       (table.map ApplicationRepositoryRecord.app_id).filter
         (fun i => i ∉ (buildLookup C).map Application.app_id)) := by
  unfold renewFull
  rw [foldl_scanStep_eq _ hP _ []]
  simp only [List.nil_append]

/-- `renew_applications` when additionally the candidate list itself has
duplicate-free identities, so the lookup is the candidate list. -/
theorem renewFull_eq_of_nodup (table : List ApplicationRepositoryRecord)
    (C : List Application)
    (hP : (table.map ApplicationRepositoryRecord.app_id).Nodup)
    (hC : (C.map Application.app_id).Nodup) :
    renewFull table C =
      (table.filter
          (fun r => r.app_id ∉
            (((table.map ApplicationRepositoryRecord.app_id).filter
              (fun i => i ∉ C.map Application.app_id)).drop 1))
        ++ (C.filter
          (fun a =>
            a.app_id ∉ table.map ApplicationRepositoryRecord.app_id)).map
          freshRecord,
       C.filter
         (fun a => a.app_id ∉ table.map ApplicationRepositoryRecord.app_id),
       (table.map ApplicationRepositoryRecord.app_id).filter
         (fun i => i ∉ C.map Application.app_id)) := by
  rw [renewFull_characterization table C hP, buildLookup_eq_self C hC]

/-- In a list whose keys are duplicate-free, filtering by the key of a
member yields exactly that member. -/
theorem filter_key_eq_of_nodup {α : Type} (f : α → String) (l : List α)
    (r : α) (h : (l.map f).Nodup) (hr : r ∈ l) :
    l.filter (fun v => f v = f r) = [r] := by
  induction l with
  | nil => cases hr
  | cons a tl ih =>
    rw [List.map_cons] at h
    obtain ⟨hfa, htl⟩ := List.nodup_cons.mp h
    rcases List.mem_cons.mp hr with hra | hrtl
    · subst hra
      rw [List.filter_cons_of_pos (by simp)]
      have hnil : tl.filter (fun v => f v = f r) = [] := by
        rw [List.filter_eq_nil_iff]
        intro v hv
        simp only [decide_eq_true_eq]
        intro hva
        exact hfa (hva ▸ List.mem_map_of_mem f hv)
      rw [hnil]
    · have hfar : f a ≠ f r := by
        intro hc
        exact hfa (hc ▸ List.mem_map_of_mem f hrtl)
      rw [List.filter_cons_of_neg (by simpa using hfar)]
      exact ih htl hrtl

/-- **C1 (code bug).** The claim — an empty candidate list deletes all `N`
persisted records and leaves an empty table — is the documented intent
(`renew_applications`'s own doc comment: "It will delete applications that
are no longer present"), but the 0-based `bind` of the DELETE defeats it.
Evaluating the code's behaviour at the failing inputs: with one persisted
record the deletion list is `["p1"]`, yet the record survives (nothing is
deleted at all); with two persisted records both are marked, yet the first
survives.  The new-record list is empty as claimed. -/
theorem renew_applications_empty_candidates_first_record_survives :
    renewFull [⟨"p1", "A", "p1", 1, 0⟩] [] =
      ([⟨"p1", "A", "p1", 1, 0⟩], [], ["p1"]) ∧
    renewFull [⟨"p1", "A", "p1", 1, 0⟩, ⟨"p2", "B", "p2", 2, 0⟩] [] =
      ([⟨"p1", "A", "p1", 1, 0⟩], [], ["p1", "p2"]) :=
  ⟨by decide, by decide⟩

theorem map_app_id_map_freshRecord (lst : List Application) :
    (lst.map freshRecord).map ApplicationRepositoryRecord.app_id =
      lst.map Application.app_id := by
  rw [List.map_map]
  rfl

/-- A duplicate-free list whose members satisfying `p` all lie in a list of
length at most one filters down to at most one element. -/
theorem drop_one_filter_eq_nil {α : Type} (l : List α) (p : α → Bool)
    (m : List α) (hnd : l.Nodup) (hm : m.length ≤ 1)
    (h : ∀ x ∈ l, p x = true → x ∈ m) :
    (l.filter p).drop 1 = [] := by
  rcases hfp : l.filter p with _ | ⟨x, _ | ⟨y, tl⟩⟩
  · rfl
  · rfl
  · exfalso
    have hfnd := List.Nodup.filter p hnd
    rw [hfp] at hfnd
    have hxy : x ≠ y := by
      have hcons := List.nodup_cons.mp hfnd
      exact fun hc => hcons.1 (hc ▸ List.mem_cons_self _ _)
    have hxmem : x ∈ l.filter p := by
      rw [hfp]
      exact List.mem_cons_self _ _
    have hymem : y ∈ l.filter p := by
      rw [hfp]
      simp
    have hx : x ∈ m :=
      h x (List.mem_of_mem_filter hxmem) (List.of_mem_filter hxmem)
    have hy : y ∈ m :=
      h y (List.mem_of_mem_filter hymem) (List.of_mem_filter hymem)
    rcases m with _ | ⟨z, _ | ⟨w, mtl⟩⟩
    · exact (List.not_mem_nil x) hx
    · rw [List.mem_singleton] at hx hy
      exact hxy (hx.trans hy.symm)
    · simp at hm

/-- **C2.** Reconciliation is idempotent in everything it performs and
returns: a second `renew_applications` run with the same candidate list
against the just-reconciled table leaves the table unchanged, inserts
nothing and returns an empty new-record list (zero insertions), and its
DELETE removes zero rows (the effective id set `delete_applications.drop 1`
of the misbound statement is empty).  The hypothesis is the
`app_id PRIMARY KEY` invariant of the table.  Note the second run may
still *mark* the one stale id that the first run's misbound DELETE failed
to remove; its DELETE is again a no-op, so the outcome is unchanged. -/
theorem renew_applications_idempotent (table : List ApplicationRepositoryRecord)
    (C : List Application)
    (hP : (table.map ApplicationRepositoryRecord.app_id).Nodup) :
    (renewFull (renewFull table C).1 C).1 = (renewFull table C).1 ∧
    (renewFull (renewFull table C).1 C).2.1 = [] ∧
    ((renewFull (renewFull table C).1 C).2.2).drop 1 = [] := by
  have hchar := renewFull_characterization table C hP
  set L := buildLookup C with hLdef
  set dels1 := (table.map ApplicationRepositoryRecord.app_id).filter
    (fun i => i ∉ L.map Application.app_id) with hdels1def
  set t1 := (renewFull table C).1 with ht1
  have ht1eq : t1 = table.filter
        (fun r => r.app_id ∉ dels1.drop 1)
      ++ (L.filter
        (fun a =>
          a.app_id ∉ table.map ApplicationRepositoryRecord.app_id)).map
        freshRecord := by
    rw [ht1, hchar]
  have ht1ids : t1.map ApplicationRepositoryRecord.app_id =
      (table.filter
        (fun r => r.app_id ∉ dels1.drop 1)).map
        ApplicationRepositoryRecord.app_id
      ++ (L.filter
        (fun a =>
          a.app_id ∉ table.map ApplicationRepositoryRecord.app_id)).map
        Application.app_id := by
    rw [ht1eq, List.map_append, map_app_id_map_freshRecord]
  have hkept_sub : ∀ x ∈ (table.filter
        (fun r => r.app_id ∉ dels1.drop 1)).map
        ApplicationRepositoryRecord.app_id,
      x ∈ table.map ApplicationRepositoryRecord.app_id ∧
        x ∉ dels1.drop 1 := by
    intro x hx
    obtain ⟨r, hrf, hrx⟩ := List.mem_map.mp hx
    obtain ⟨hrt, hrk⟩ := List.mem_filter.mp hrf
    simp only [decide_eq_true_eq] at hrk
    exact ⟨hrx ▸ List.mem_map_of_mem _ hrt, hrx ▸ hrk⟩
  have hfresh_sub : ∀ x ∈ (L.filter
        (fun a =>
          a.app_id ∉ table.map ApplicationRepositoryRecord.app_id)).map
        Application.app_id,
      x ∈ L.map Application.app_id ∧
        x ∉ table.map ApplicationRepositoryRecord.app_id := by
    intro x hx
    obtain ⟨a, haf, hax⟩ := List.mem_map.mp hx
    obtain ⟨haL, hak⟩ := List.mem_filter.mp haf
    simp only [decide_eq_true_eq] at hak
    exact ⟨hax ▸ List.mem_map_of_mem _ haL, hax ▸ hak⟩
  have ht1nodup : (t1.map ApplicationRepositoryRecord.app_id).Nodup := by
    rw [ht1ids, List.nodup_append]
    refine ⟨((List.filter_sublist _).map _).nodup hP,
      ((List.filter_sublist _).map _).nodup (nodup_map_app_id_buildLookup C), ?_⟩
    intro x hx1 hx2
    exact (hfresh_sub x hx2).2 (hkept_sub x hx1).1
  have ht1keys_class : ∀ x ∈ t1.map ApplicationRepositoryRecord.app_id,
      x ∉ L.map Application.app_id → x ∈ dels1.take 1 := by
    intro x hx hxL
    rw [ht1ids] at hx
    rcases List.mem_append.mp hx with hx | hx
    · obtain ⟨hxt, hxd⟩ := hkept_sub x hx
      have hxdels1 : x ∈ dels1 := by
        rw [hdels1def]
        exact List.mem_filter.mpr ⟨hxt, by simpa using hxL⟩
      rcases List.mem_append.mp
          ((List.take_append_drop 1 dels1).symm ▸ hxdels1) with hmem | hmem
      · exact hmem
      · exact absurd hmem hxd
    · exact absurd (hfresh_sub x hx).1 hxL
  have hLsub : ∀ a ∈ L, a.app_id ∈ t1.map ApplicationRepositoryRecord.app_id := by
    intro a ha
    by_cases hid : a.app_id ∈ table.map ApplicationRepositoryRecord.app_id
    · obtain ⟨r, hrt, hrx⟩ := List.mem_map.mp hid
      have hrkL : r.app_id ∈ L.map Application.app_id :=
        hrx.symm ▸ List.mem_map_of_mem _ ha
      have hrnodel : r.app_id ∉ dels1 := by
        intro hmem
        rw [hdels1def] at hmem
        have hk := (List.mem_filter.mp hmem).2
        simp only [decide_eq_true_eq] at hk
        exact hk hrkL
      have hrkept : r ∈ table.filter
          (fun r => r.app_id ∉ dels1.drop 1) := by
        refine List.mem_filter.mpr ⟨hrt, ?_⟩
        simp only [decide_eq_true_eq]
        intro hmem
        exact hrnodel ((List.drop_sublist 1 dels1).mem hmem)
      rw [ht1ids]
      exact List.mem_append.mpr
        (Or.inl (hrx ▸ List.mem_map_of_mem ApplicationRepositoryRecord.app_id hrkept))
    · have hafresh : a ∈ L.filter
          (fun a => a.app_id ∉ table.map ApplicationRepositoryRecord.app_id) :=
        List.mem_filter.mpr ⟨ha, by simpa using hid⟩
      rw [ht1ids]
      exact List.mem_append.mpr (Or.inr (List.mem_map_of_mem _ hafresh))
  have hchar2 := renewFull_characterization t1 C ht1nodup
  rw [← hLdef] at hchar2
  have hnew2 : L.filter
      (fun a => a.app_id ∉ t1.map ApplicationRepositoryRecord.app_id) = [] := by
    rw [List.filter_eq_nil_iff]
    intro a ha
    simp only [decide_eq_true_eq, not_not]
    exact hLsub a ha
  have hdels2drop : ((t1.map ApplicationRepositoryRecord.app_id).filter
      (fun i => i ∉ L.map Application.app_id)).drop 1 = [] := by
    refine drop_one_filter_eq_nil _ _ (dels1.take 1) ht1nodup ?_ ?_
    · rw [List.length_take]
      exact Nat.min_le_left 1 _
    · intro x hx hpx
      simp only [decide_eq_true_eq] at hpx
      exact ht1keys_class x hx hpx
  refine ⟨?_, ?_, ?_⟩
  · rw [hchar2]
    dsimp only
    rw [hnew2, hdels2drop]
    simp
  · rw [hchar2]
    exact hnew2
  · rw [hchar2]
    exact hdels2drop

theorem renew_applications_idempotent_witness :
    (([⟨"p1", "App", "p1", 3, 7⟩] :
        List ApplicationRepositoryRecord).map
        ApplicationRepositoryRecord.app_id).Nodup ∧
    ((renewFull (renewFull [⟨"p1", "App", "p1", 3, 7⟩]
        [⟨"New", none, "n1", "n1", none, 0⟩]).1
        [⟨"New", none, "n1", "n1", none, 0⟩]).1 =
      (renewFull [⟨"p1", "App", "p1", 3, 7⟩]
        [⟨"New", none, "n1", "n1", none, 0⟩]).1 ∧
    (renewFull (renewFull [⟨"p1", "App", "p1", 3, 7⟩]
        [⟨"New", none, "n1", "n1", none, 0⟩]).1
        [⟨"New", none, "n1", "n1", none, 0⟩]).2.1 = [] ∧
    ((renewFull (renewFull [⟨"p1", "App", "p1", 3, 7⟩]
        [⟨"New", none, "n1", "n1", none, 0⟩]).1
        [⟨"New", none, "n1", "n1", none, 0⟩]).2.2).drop 1 = []) :=
  ⟨by decide, renew_applications_idempotent _ _ (by decide)⟩

/-- **C3.** A survivor (an `app_id` present both in the table and in the
candidate list) keeps its row — `usage_count` and `last_used` included —
exactly once in the reconciled table, is not in the returned new list, and
is not in the deletion list. -/
theorem renew_applications_preserves_survivors
    (table : List ApplicationRepositoryRecord) (C : List Application)
    (r : ApplicationRepositoryRecord)
    (hP : (table.map ApplicationRepositoryRecord.app_id).Nodup)
    (hr : r ∈ table) (hc : r.app_id ∈ C.map Application.app_id) :
    ((renewFull table C).1).filter (fun v => v.app_id = r.app_id) = [r] ∧
    ((renewFull table C).2.1).filter (fun a => a.app_id = r.app_id) = [] ∧
    r.app_id ∉ (renewFull table C).2.2 := by
  have hchar := renewFull_characterization table C hP
  have hcL : r.app_id ∈ (buildLookup C).map Application.app_id :=
    (mem_map_app_id_buildLookup C r.app_id).mpr hc
  have hrid : r.app_id ∈ table.map ApplicationRepositoryRecord.app_id :=
    List.mem_map_of_mem _ hr
  have hnewnil : ((buildLookup C).filter
      (fun a =>
        a.app_id ∉ table.map ApplicationRepositoryRecord.app_id)).filter
      (fun a => a.app_id = r.app_id) = [] := by
    rw [List.filter_eq_nil_iff]
    intro a ha
    obtain ⟨_, hak⟩ := List.mem_filter.mp ha
    simp only [decide_eq_true_eq] at hak ⊢
    intro har
    exact hak (har ▸ hrid)
  refine ⟨?_, ?_, ?_⟩
  · rw [hchar]
    dsimp only
    rw [List.filter_append]
    have hkeptfilter : (table.filter
        (fun v => v.app_id ∉
          (((table.map ApplicationRepositoryRecord.app_id).filter
            (fun i =>
              i ∉ (buildLookup C).map Application.app_id)).drop 1))).filter
        (fun v => v.app_id = r.app_id) = [r] := by
      rw [List.filter_filter]
      have hcongr : table.filter
          (fun v =>
            decide (v.app_id = r.app_id) &&
              decide (v.app_id ∉
                (((table.map ApplicationRepositoryRecord.app_id).filter
                  (fun i =>
                    i ∉ (buildLookup C).map Application.app_id)).drop 1))) =
          table.filter (fun v => v.app_id = r.app_id) := by
        refine List.filter_congr ?_
        intro v _
        by_cases hvr : v.app_id = r.app_id
        · have hvnod : v.app_id ∉
              (((table.map ApplicationRepositoryRecord.app_id).filter
                (fun i =>
                  i ∉ (buildLookup C).map Application.app_id)).drop 1) := by
            intro hmem
            have hmem2 := (List.drop_sublist 1 _).mem hmem
            have hk := (List.mem_filter.mp hmem2).2
            simp only [decide_eq_true_eq] at hk
            exact hk (hvr.symm ▸ hcL)
          rw [decide_eq_true hvr, decide_eq_true hvnod]
          rfl
        · rw [decide_eq_false hvr]
          rfl
      rw [hcongr]
      exact filter_key_eq_of_nodup ApplicationRepositoryRecord.app_id table r hP hr
    have hfreshnil : (((buildLookup C).filter
        (fun a =>
          a.app_id ∉ table.map ApplicationRepositoryRecord.app_id)).map
        freshRecord).filter (fun v => v.app_id = r.app_id) = [] := by
      rw [List.filter_eq_nil_iff]
      intro x hx
      obtain ⟨a, hafilter, hax⟩ := List.mem_map.mp hx
      obtain ⟨_, hak⟩ := List.mem_filter.mp hafilter
      simp only [decide_eq_true_eq] at hak ⊢
      intro hxr
      have : a.app_id = r.app_id := by rw [← hxr, ← hax]; rfl
      exact hak (this ▸ hrid)
    rw [hkeptfilter, hfreshnil]
    rfl
  · rw [hchar]
    exact hnewnil
  · rw [hchar]
    dsimp only
    intro hmem
    obtain ⟨_, hk⟩ := List.mem_filter.mp hmem
    simp only [decide_eq_true_eq] at hk
    exact hk hcL

theorem renew_applications_preserves_survivors_witness :
    (([⟨"p1", "App", "p1", 3, 7⟩] :
        List ApplicationRepositoryRecord).map
        ApplicationRepositoryRecord.app_id).Nodup ∧
    (⟨"p1", "App", "p1", 3, 7⟩ : ApplicationRepositoryRecord) ∈
      ([⟨"p1", "App", "p1", 3, 7⟩] : List ApplicationRepositoryRecord) ∧
    (⟨"p1", "App", "p1", 3, 7⟩ : ApplicationRepositoryRecord).app_id ∈
      ([⟨"App", none, "p1", "p1", none, 0⟩] :
        List Application).map Application.app_id ∧
    (((renewFull [⟨"p1", "App", "p1", 3, 7⟩]
        [⟨"App", none, "p1", "p1", none, 0⟩]).1).filter
        (fun v => v.app_id = "p1") = [⟨"p1", "App", "p1", 3, 7⟩] ∧
      ((renewFull [⟨"p1", "App", "p1", 3, 7⟩]
        [⟨"App", none, "p1", "p1", none, 0⟩]).2.1).filter
        (fun a => a.app_id = "p1") = [] ∧
      "p1" ∉ (renewFull [⟨"p1", "App", "p1", 3, 7⟩]
        [⟨"App", none, "p1", "p1", none, 0⟩]).2.2) :=
  ⟨by decide, by decide, by decide,
    renew_applications_preserves_survivors
      [⟨"p1", "App", "p1", 3, 7⟩] [⟨"App", none, "p1", "p1", none, 0⟩]
      ⟨"p1", "App", "p1", 3, 7⟩ (by decide) (by decide) (by decide)⟩

/-- **C4.** Reconciliation returns exactly the new set: the returned list
is precisely the candidates whose `app_id` is not persisted — no
survivors, no deleted records — and each returned candidate is inserted
into the resulting table as a fresh record with `usage_count = 0` and
`last_used = 0` (the model of SQL NULL; the INSERT is correctly 1-based
bound, unlike the DELETE).  The hypotheses are the table's primary-key
invariant and duplicate-free candidate identities. -/
theorem renew_applications_returns_exactly_new
    (table : List ApplicationRepositoryRecord) (C : List Application)
    (hP : (table.map ApplicationRepositoryRecord.app_id).Nodup)
    (hC : (C.map Application.app_id).Nodup) :
    (renewFull table C).2.1 =
      C.filter
        (fun a => a.app_id ∉ table.map ApplicationRepositoryRecord.app_id) ∧
    (∀ a ∈ (renewFull table C).2.1,
      freshRecord a ∈ (renewFull table C).1) ∧
    ∀ a : Application,
      (freshRecord a).usage_count = 0 ∧ (freshRecord a).last_used = 0 := by
  have h := renewFull_eq_of_nodup table C hP hC
  refine ⟨by rw [h], ?_, fun a => ⟨rfl, rfl⟩⟩
  intro a ha
  rw [h] at ha ⊢
  exact List.mem_append.mpr (Or.inr (List.mem_map_of_mem _ ha))

theorem renew_applications_returns_exactly_new_witness :
    (([⟨"p1", "Old", "p1", 3, 7⟩] :
        List ApplicationRepositoryRecord).map
        ApplicationRepositoryRecord.app_id).Nodup ∧
    (([⟨"New", none, "n1", "n1", none, 0⟩] :
        List Application).map Application.app_id).Nodup ∧
    ((renewFull [⟨"p1", "Old", "p1", 3, 7⟩]
        [⟨"New", none, "n1", "n1", none, 0⟩]).2.1 =
      ([⟨"New", none, "n1", "n1", none, 0⟩] : List Application).filter
        (fun a => a.app_id ∉
          ([⟨"p1", "Old", "p1", 3, 7⟩] :
            List ApplicationRepositoryRecord).map
            ApplicationRepositoryRecord.app_id) ∧
    (∀ a ∈ (renewFull [⟨"p1", "Old", "p1", 3, 7⟩]
        [⟨"New", none, "n1", "n1", none, 0⟩]).2.1,
      freshRecord a ∈ (renewFull [⟨"p1", "Old", "p1", 3, 7⟩]
        [⟨"New", none, "n1", "n1", none, 0⟩]).1) ∧
    ∀ a : Application,
      (freshRecord a).usage_count = 0 ∧ (freshRecord a).last_used = 0) :=
  ⟨by decide, by decide,
    renew_applications_returns_exactly_new
      [⟨"p1", "Old", "p1", 3, 7⟩] [⟨"New", none, "n1", "n1", none, 0⟩]
      (by decide) (by decide)⟩

/-- **C5.** Empty-query law: with a matcher that scores the empty query at
the sentinel-collapsed value `0` on every name (the behaviour of the
external matcher after `unwrap_or(0)`), both `sort_with_filter "" apps`
and `handle_search_application ""` return the empty list, whatever the
candidate set. -/
theorem search_empty_query_returns_nothing
    (matcher : String → String → Option Int) (apps : List Application)
    (app_cache : Option (List Application))
    (h : ∀ name : String, (matcher name "").getD 0 = 0) :
    sort_with_filter matcher "" apps = [] ∧
    handle_search_application matcher app_cache "" = [] := by
  have hall : ∀ l : List Application, sort_with_filter matcher "" l = [] := by
    intro l
    have hfilter : ((l.map
        (fun app => (app, (matcher app.name "").getD 0))).insertionSort
        sortKeyRel).filter (fun p => MINIMUM_MATCH_SCORE < p.2) = [] := by
      rw [List.filter_eq_nil_iff]
      intro p hp
      obtain ⟨a, _, hpa⟩ := List.mem_map.mp ((List.mem_insertionSort sortKeyRel).mp hp)
      simp only [decide_eq_true_eq]
      rw [← hpa]
      show ¬MINIMUM_MATCH_SCORE < (matcher a.name "").getD 0
      rw [h a.name]
      decide
    show (((l.map
        (fun app => (app, (matcher app.name "").getD 0))).insertionSort
        sortKeyRel).filter
        (fun p => MINIMUM_MATCH_SCORE < p.2)).map Prod.fst = []
    rw [hfilter]
    rfl
  refine ⟨hall apps, ?_⟩
  show ((sort_with_filter matcher "" (app_cache.getD [])).take
      (min (sort_with_filter matcher "" (app_cache.getD [])).length
        SEARCH_RESULT_LIMIT)).map
      (fun app => { name := app.name, app_id := app.app_id,
                    icon_path := app.icon_path.getD "" : AppForView }) = []
  rw [hall (app_cache.getD [])]
  rfl

theorem search_empty_query_returns_nothing_witness :
    (∀ name : String,
      (((fun _ _ => none) : String → String → Option Int) name "").getD 0 = 0) ∧
    (sort_with_filter (fun _ _ => none) ""
        [⟨"Firefox", none, "f", "f", none, 10⟩] = [] ∧
      handle_search_application (fun _ _ => none)
        (some [⟨"Firefox", none, "f", "f", none, 10⟩]) "" = []) :=
  ⟨fun _ => rfl,
    search_empty_query_returns_nothing (fun _ _ => none)
      [⟨"Firefox", none, "f", "f", none, 10⟩]
      (some [⟨"Firefox", none, "f", "f", none, 10⟩]) (fun _ => rfl)⟩

/-- **C6.** The relevance floor is strict: `sort_with_filter` keeps exactly
the candidates whose matcher score is strictly greater than the threshold
constant `MINIMUM_MATCH_SCORE = 19`; a candidate scoring exactly `19` is
excluded, one scoring `20` or more is included. -/
theorem sort_with_filter_relevance_floor
    (matcher : String → String → Option Int) (query : String)
    (apps : List Application) :
    MINIMUM_MATCH_SCORE = 19 ∧
    ∀ a : Application,
      a ∈ sort_with_filter matcher query apps ↔
        (a ∈ apps ∧ MINIMUM_MATCH_SCORE < (matcher a.name query).getD 0) := by
  refine ⟨rfl, ?_⟩
  intro a
  show a ∈ (((apps.map
      (fun app => (app, (matcher app.name query).getD 0))).insertionSort
      sortKeyRel).filter
      (fun p => MINIMUM_MATCH_SCORE < p.2)).map Prod.fst ↔ _
  constructor
  · intro ha
    obtain ⟨p, hpf, hpa⟩ := List.mem_map.mp ha
    obtain ⟨hpsorted, hpscore⟩ := List.mem_filter.mp hpf
    obtain ⟨b, hb, hpb⟩ :=
      List.mem_map.mp ((List.mem_insertionSort sortKeyRel).mp hpsorted)
    simp only [decide_eq_true_eq] at hpscore
    rw [← hpb] at hpa hpscore
    rw [← hpa]
    exact ⟨hb, hpscore⟩
  · rintro ⟨haapps, hscore⟩
    refine List.mem_map.mpr ⟨(a, (matcher a.name query).getD 0), ?_, rfl⟩
    refine List.mem_filter.mpr ⟨?_, by simpa using hscore⟩
    exact (List.mem_insertionSort sortKeyRel).mpr
      (List.mem_map.mpr ⟨a, haapps, rfl⟩)

theorem take_min_length {α : Type} (l : List α) (n : Nat) :
    l.take (min l.length n) = l.take n := by
  rcases Nat.le_total l.length n with h | h
  · rw [Nat.min_eq_left h, List.take_length, List.take_of_length_le h]
  · rw [Nat.min_eq_right h]

/-- **C7.** Result cap: `handle_search_application` returns at most
`SEARCH_RESULT_LIMIT = 6` entries, and what it returns is exactly the
first `6` entries — the top-ranked prefix — of the sorted, filtered list
produced by `sort_with_filter`, projected to the view type. -/
theorem handle_search_application_result_cap
    (matcher : String → String → Option Int)
    (app_cache : Option (List Application)) (query : String) :
    SEARCH_RESULT_LIMIT = 6 ∧
    (handle_search_application matcher app_cache query).length ≤ 6 ∧
    handle_search_application matcher app_cache query =
      ((sort_with_filter matcher query (app_cache.getD [])).take 6).map
        (fun app => { name := app.name, app_id := app.app_id,
                      icon_path := app.icon_path.getD "" : AppForView }) := by
  have hmain : handle_search_application matcher app_cache query =
      ((sort_with_filter matcher query (app_cache.getD [])).take 6).map
        (fun app => { name := app.name, app_id := app.app_id,
                      icon_path := app.icon_path.getD "" : AppForView }) := by
    show ((sort_with_filter matcher query (app_cache.getD [])).take
        (min (sort_with_filter matcher query (app_cache.getD [])).length
          SEARCH_RESULT_LIMIT)).map
        (fun app => { name := app.name, app_id := app.app_id,
                      icon_path := app.icon_path.getD "" : AppForView }) = _
    rw [take_min_length]
    rfl
  refine ⟨rfl, ?_, hmain⟩
  rw [hmain, List.length_map]
  calc ((sort_with_filter matcher query (app_cache.getD [])).take 6).length
      ≤ 6 := by
        rw [List.length_take]
        exact Nat.min_le_left 6 _

/-- **C8.** Ranker ordering and stability: the output of
`sort_with_filter` is ordered by descending matcher score, ties broken by
descending `usage_recency_score`; and entries that agree on both sort keys
appear in exactly their input order (the key-restricted output equals the
key-restricted input when the key's score clears the floor, and is empty
otherwise).  Both parts are deterministic functions of the inputs, so the
output is exactly reproducible. -/
theorem sort_with_filter_ordering_stability
    (matcher : String → String → Option Int) (query : String)
    (apps : List Application) :
    List.Pairwise
      (fun a b : Application =>
        (matcher b.name query).getD 0 < (matcher a.name query).getD 0 ∨
          ((matcher a.name query).getD 0 = (matcher b.name query).getD 0 ∧
            b.usage_recency_score ≤ a.usage_recency_score))
      (sort_with_filter matcher query apps) ∧
    ∀ (s : Int) (rec : ℚ),
      (sort_with_filter matcher query apps).filter
        (fun a => (matcher a.name query).getD 0 = s ∧
          a.usage_recency_score = rec) =
        (if MINIMUM_MATCH_SCORE < s then
          apps.filter (fun a => (matcher a.name query).getD 0 = s ∧
            a.usage_recency_score = rec)
        else []) := by
  have hscore : ∀ p ∈ (apps.map
      (fun app => (app, (matcher app.name query).getD 0))).insertionSort
      sortKeyRel, p.2 = (matcher p.1.name query).getD 0 := by
    intro p hp
    obtain ⟨a, _, hpa⟩ :=
      List.mem_map.mp ((List.mem_insertionSort sortKeyRel).mp hp)
    rw [← hpa]
  have hsorted : ((apps.map
      (fun app => (app, (matcher app.name query).getD 0))).insertionSort
      sortKeyRel).Pairwise sortKeyRel :=
    List.sorted_insertionSort sortKeyRel _
  constructor
  · -- ordering
    have hfiltered : (((apps.map
        (fun app => (app, (matcher app.name query).getD 0))).insertionSort
        sortKeyRel).filter
        (fun p => MINIMUM_MATCH_SCORE < p.2)).Pairwise sortKeyRel :=
      List.Pairwise.sublist (List.filter_sublist _) hsorted
    have hpair2 : (((apps.map
        (fun app => (app, (matcher app.name query).getD 0))).insertionSort
        sortKeyRel).filter
        (fun p => MINIMUM_MATCH_SCORE < p.2)).Pairwise
        (fun p q : Application × Int =>
          (matcher q.1.name query).getD 0 < (matcher p.1.name query).getD 0 ∨
            ((matcher p.1.name query).getD 0 = (matcher q.1.name query).getD 0 ∧
              q.1.usage_recency_score ≤ p.1.usage_recency_score)) := by
      refine List.Pairwise.imp_of_mem ?_ hfiltered
      intro p q hp hq hrel
      have hps := hscore p (List.mem_of_mem_filter hp)
      have hqs := hscore q (List.mem_of_mem_filter hq)
      rw [sortKeyRel, hps, hqs] at hrel
      exact hrel
    show (((((apps.map
        (fun app => (app, (matcher app.name query).getD 0))).insertionSort
        sortKeyRel).filter
        (fun p => MINIMUM_MATCH_SCORE < p.2)).map Prod.fst)).Pairwise _
    exact List.pairwise_map.mpr hpair2
  · -- stability
    intro s rec
    have hfilterF : ((apps.map
        (fun app => (app, (matcher app.name query).getD 0))).insertionSort
        sortKeyRel).filter
        (fun p : Application × Int =>
          p.2 = s ∧ p.1.usage_recency_score = rec) =
        (apps.map
          (fun app => (app, (matcher app.name query).getD 0))).filter
        (fun p : Application × Int =>
          p.2 = s ∧ p.1.usage_recency_score = rec) := by
      have hFpair : ((apps.map
          (fun app => (app, (matcher app.name query).getD 0))).filter
          (fun p : Application × Int =>
            p.2 = s ∧ p.1.usage_recency_score = rec)).Pairwise sortKeyRel := by
        refine List.pairwise_of_forall_mem_list ?_
        intro p hp q hq
        obtain ⟨_, hp2⟩ := List.mem_filter.mp hp
        obtain ⟨_, hq2⟩ := List.mem_filter.mp hq
        simp only [decide_eq_true_eq] at hp2 hq2
        right
        rw [hp2.1, hq2.1, hp2.2, hq2.2]
        exact ⟨rfl, le_refl _⟩
      have hFsubsort : List.Sublist ((apps.map
          (fun app => (app, (matcher app.name query).getD 0))).filter
          (fun p : Application × Int =>
            p.2 = s ∧ p.1.usage_recency_score = rec))
          ((apps.map
            (fun app => (app, (matcher app.name query).getD 0))).insertionSort
            sortKeyRel) :=
        List.sublist_insertionSort hFpair (List.filter_sublist _)
      have hFsub2 : List.Sublist ((apps.map
          (fun app => (app, (matcher app.name query).getD 0))).filter
          (fun p : Application × Int =>
            p.2 = s ∧ p.1.usage_recency_score = rec))
          (((apps.map
            (fun app => (app, (matcher app.name query).getD 0))).insertionSort
            sortKeyRel).filter
          (fun p : Application × Int =>
            p.2 = s ∧ p.1.usage_recency_score = rec)) := by
        have hself : ((apps.map
            (fun app => (app, (matcher app.name query).getD 0))).filter
            (fun p : Application × Int =>
              p.2 = s ∧ p.1.usage_recency_score = rec)).filter
            (fun p : Application × Int =>
              p.2 = s ∧ p.1.usage_recency_score = rec) =
            ((apps.map
              (fun app => (app, (matcher app.name query).getD 0))).filter
            (fun p : Application × Int =>
              p.2 = s ∧ p.1.usage_recency_score = rec)) :=
          List.filter_eq_self.mpr (fun p hp => (List.mem_filter.mp hp).2)
        have := List.Sublist.filter
          (fun p : Application × Int =>
            p.2 = s ∧ p.1.usage_recency_score = rec) hFsubsort
        rwa [hself] at this
      have hperm : List.Perm (((apps.map
          (fun app => (app, (matcher app.name query).getD 0))).insertionSort
          sortKeyRel).filter
          (fun p : Application × Int =>
            p.2 = s ∧ p.1.usage_recency_score = rec))
          ((apps.map
            (fun app => (app, (matcher app.name query).getD 0))).filter
          (fun p : Application × Int =>
            p.2 = s ∧ p.1.usage_recency_score = rec)) :=
        List.Perm.filter _ (List.perm_insertionSort sortKeyRel _)
      exact (List.Sublist.eq_of_length hFsub2 hperm.length_eq.symm).symm
    show ((((apps.map
        (fun app => (app, (matcher app.name query).getD 0))).insertionSort
        sortKeyRel).filter
        (fun p => MINIMUM_MATCH_SCORE < p.2)).map Prod.fst).filter
        (fun a => (matcher a.name query).getD 0 = s ∧
          a.usage_recency_score = rec) = _
    rw [List.filter_map, List.filter_filter]
    by_cases hs : MINIMUM_MATCH_SCORE < s
    · rw [if_pos hs]
      have hcongr : ((apps.map
          (fun app => (app, (matcher app.name query).getD 0))).insertionSort
          sortKeyRel).filter
          (fun p : Application × Int =>
            ((fun a => decide ((matcher a.name query).getD 0 = s ∧
              a.usage_recency_score = rec)) ∘ Prod.fst) p &&
              decide (MINIMUM_MATCH_SCORE < p.2)) =
          ((apps.map
            (fun app => (app, (matcher app.name query).getD 0))).insertionSort
            sortKeyRel).filter
          (fun p : Application × Int =>
            p.2 = s ∧ p.1.usage_recency_score = rec) := by
        refine List.filter_congr ?_
        intro p hp
        rw [hscore p hp]
        by_cases hc : (matcher p.1.name query).getD 0 = s ∧
            p.1.usage_recency_score = rec
        · simp [hc, hs]
        · simp [hc]
      rw [hcongr, hfilterF, List.filter_map, List.map_map]
      have hid : ((apps.filter
          (fun a =>
            ((fun p : Application × Int =>
              decide (p.2 = s ∧ p.1.usage_recency_score = rec)) ∘
              (fun app => (app, (matcher app.name query).getD 0))) a))).map
          (Prod.fst ∘ (fun app => (app, (matcher app.name query).getD 0))) =
          apps.filter
          (fun a => (matcher a.name query).getD 0 = s ∧
            a.usage_recency_score = rec) := by
        rw [show (Prod.fst ∘
            (fun app : Application =>
              (app, (matcher app.name query).getD 0))) = id from rfl,
          List.map_id]
        rfl
      exact hid
    · rw [if_neg hs]
      have hnil : ((apps.map
          (fun app => (app, (matcher app.name query).getD 0))).insertionSort
          sortKeyRel).filter
          (fun p : Application × Int =>
            ((fun a => decide ((matcher a.name query).getD 0 = s ∧
              a.usage_recency_score = rec)) ∘ Prod.fst) p &&
              decide (MINIMUM_MATCH_SCORE < p.2)) = [] := by
        rw [List.filter_eq_nil_iff]
        intro p hp
        by_cases hc : (matcher p.1.name query).getD 0 = s ∧
            p.1.usage_recency_score = rec
        · have h19 : ¬MINIMUM_MATCH_SCORE < p.2 := by
            rw [hscore p hp, hc.1]
            exact hs
          simp [h19]
        · simp [hc]
      rw [hnil]
      rfl

/-- **C9.** Usage-recency formula: converting a stored record sets
`usage_recency_score = usage_count / (days_since_last_used + 1)`, where
`days_since_last_used` is the whole-day integer quotient of the elapsed
seconds, equal to `max 0 ((now - last_used) / 86400)` for a past
`last_used`, and `0` when `last_used` is unset (`0`, the model of NULL) or
not in the past; `usage_count = 10` two days ago gives `10/3`, and an
unset `last_used` gives `usage_count / 1`. -/
theorem usage_recency_formula (now : Int) (r : ApplicationRepositoryRecord) :
    (recordToApplication now r).usage_recency_score =
      (r.usage_count : ℚ) / ((daysSinceLastUsed now r : ℚ) + 1) ∧
    ((r.last_used ≤ 0 ∨ now ≤ r.last_used) → daysSinceLastUsed now r = 0) ∧
    (0 < r.last_used → r.last_used < now →
      daysSinceLastUsed now r = max 0 ((now - r.last_used) / 86400)) ∧
    (r.usage_count = 10 → r.last_used = now - 2 * 86400 → 0 < r.last_used →
      (recordToApplication now r).usage_recency_score = 10 / 3) ∧
    (r.last_used = 0 →
      (recordToApplication now r).usage_recency_score =
        (r.usage_count : ℚ) / 1) := by
  refine ⟨rfl, ?_, ?_, ?_, ?_⟩
  · intro h
    rw [daysSinceLastUsed, if_neg]
    rintro ⟨h1, h2⟩
    rcases h with h | h
    · omega
    · omega
  · intro h1 h2
    rw [daysSinceLastUsed, if_pos ⟨h1, h2⟩]
    have hnonneg : 0 ≤ (now - r.last_used) / 86400 :=
      Int.ediv_nonneg (by omega) (by omega)
    omega
  · intro hc hl hpos
    have hd : daysSinceLastUsed now r = 2 := by
      rw [daysSinceLastUsed, if_pos ⟨hpos, by omega⟩]
      have hsub : now - r.last_used = 172800 := by omega
      rw [hsub]
      decide
    show (r.usage_count : ℚ) / ((daysSinceLastUsed now r : ℚ) + 1) = 10 / 3
    rw [hd, hc]
    norm_num
  · intro hl
    have hd : daysSinceLastUsed now r = 0 := by
      rw [daysSinceLastUsed, if_neg]
      rintro ⟨h1, _⟩
      omega
    show (r.usage_count : ℚ) / ((daysSinceLastUsed now r : ℚ) + 1) =
      (r.usage_count : ℚ) / 1
    rw [hd]
    norm_num

theorem usage_recency_formula_witness :
    (recordToApplication 200000
      ⟨"p1", "A", "p1", 10, 27200⟩).usage_recency_score = 10 / 3 ∧
    (recordToApplication 200000
      ⟨"p1", "A", "p1", 7, 0⟩).usage_recency_score = (7 : ℚ) / 1 :=
  ⟨(usage_recency_formula 200000 ⟨"p1", "A", "p1", 10, 27200⟩).2.2.2.1
      rfl (by decide) (by decide),
    (usage_recency_formula 200000 ⟨"p1", "A", "p1", 7, 0⟩).2.2.2.2 rfl⟩

/-- **C10 counterexample.** The claim says `handle_launch_application`
returns `Ok(())` in every controller state including an uninitialized
working set; but with `app_cache = None` the code returns
`Err("Application cache is not initialized")`. -/
theorem handle_launch_uninitialized_cache_errors :
    handle_launch_application
      (fun _ => Except.ok ()) (fun _ => Except.ok ()) none "x" =
      Except.error "Application cache is not initialized" ∧
    handle_launch_application
      (fun _ => Except.ok ()) (fun _ => Except.ok ()) none "x" ≠
      Except.ok () :=
  ⟨rfl, fun h => Except.noConfusion h⟩

/-- **C10 (amended).** Once the working set is initialized,
`handle_launch_application` returns `Ok(())` whenever the matching app's
launch succeeds — in particular for an absent `app_id` (logged, not fatal)
and for a failing Store usage-update (swallowed by `let _ = ...`).  An
uninitialized working set, however, returns an error. -/
theorem handle_launch_application_ok_when_initialized
    (launch update_usage : Application → Except String Unit)
    (l : List Application) (app_id : String)
    (h : ∀ app ∈ l, app.app_id = app_id → launch app = Except.ok ()) :
    handle_launch_application launch update_usage (some l) app_id =
      Except.ok () := by
  cases hfind : l.find? (fun app => app.app_id = app_id) with
  | none =>
    unfold handle_launch_application
    dsimp only
    rw [hfind]
  | some app =>
    have happ : app ∈ l := List.mem_of_find?_eq_some hfind
    have hid : app.app_id = app_id := by
      have hsome := List.find?_some hfind
      simpa using hsome
    unfold handle_launch_application
    dsimp only
    rw [hfind]
    dsimp only
    rw [h app happ hid]

theorem handle_launch_application_ok_witness :
    (∀ app ∈ ([⟨"A", none, "a1", "p", none, 0⟩] : List Application),
      app.app_id = "a1" →
        ((fun _ => Except.ok ()) : Application → Except String Unit) app =
          Except.ok ()) ∧
    handle_launch_application
      ((fun _ => Except.ok ()) : Application → Except String Unit)
      ((fun _ => Except.error "db failure") :
        Application → Except String Unit)
      (some [⟨"A", none, "a1", "p", none, 0⟩]) "a1" = Except.ok () :=
  ⟨fun _ _ _ => rfl,
    handle_launch_application_ok_when_initialized _ _ _ _ (fun _ _ _ => rfl)⟩
